import Mathlib

/-!
Verification of the danswer retrieval/ranking pipeline
(`backend/danswer/search/search_runner.py`) against its natural-language
specification.  Scores are modelled as rationals; Python operations that
raise (`min`/`max` of an empty sequence, float division by zero, unpacking
`zip(*[])`) are modelled by `Option`-valued functions returning `none`.
-/

namespace Danswer

/-- Modelled from the spec: `InferenceChunk` (danswer.indexing.models is not
part of the provided sources).  Only the attributes read by the retrieval and
ranking pipeline are modelled: the dedup key `(document_id, chunk_id)`, the
passage `content`, the signed feedback count `boost`, the precomputed
`recency_bias` multiplier and the mutable optional `score`. -/
structure InferenceChunk where
  document_id : String
  chunk_id : Nat
  content : String
  boost : Int
  recency_bias : ℚ
  score : Option ℚ
deriving DecidableEq, Repr, Inhabited

/-- The dedup key `(chunk.document_id, chunk.chunk_id)` used by
`combine_retrieval_results`. -/
def chunkKey (c : InferenceChunk) : String × Nat :=
  (c.document_id, c.chunk_id)

/-- Modelled from the spec: the `unique_id` of a chunk is "derived from the
key" `(document_id, chunk_id)` and is used only for equality tests by the
relevance filter; it is modelled as the key itself. -/
def uid (c : InferenceChunk) : String × Nat :=
  (c.document_id, c.chunk_id)

/-- `chunk.score or 0`: Python's falsy-default, with `None` (and `0` itself)
collapsing to `0`. -/
def scoreOr0 (c : InferenceChunk) : ℚ :=
  c.score.getD 0

/-- Forget the mutable `score` field; used to compare chunk identity across
the in-place score mutations performed by the reranker. -/
def clearScore (c : InferenceChunk) : InferenceChunk :=
  { c with score := none }

/-- Python `min(l)`: `none` on the empty list (a `ValueError` in the source). -/
def listMin : List ℚ → Option ℚ
  | [] => none
  | x :: xs => some (xs.foldl min x)

/-- Python `max(l)`: `none` on the empty list (a `ValueError` in the source). -/
def listMax : List ℚ → Option ℚ
  | [] => none
  | x :: xs => some (xs.foldl max x)

/-! ### ResultMerger: `combine_retrieval_results`

The Python implementation accumulates chunks in an insertion-ordered `dict`
keyed by `(document_id, chunk_id)`; the dict is modelled as an association
list in which updating an existing key keeps its position. -/

/-- Lookup in the ordered-dict model. -/
def lookupAssoc (k : String × Nat) :
    List ((String × Nat) × InferenceChunk) → Option InferenceChunk
  | [] => none
  | kv :: rest => if kv.1 = k then some kv.2 else lookupAssoc k rest

/-- Position-preserving update of an existing key (Python
`unique_chunks[key] = chunk` on a key already present). -/
def updAssoc (k : String × Nat) (c : InferenceChunk) :
    List ((String × Nat) × InferenceChunk) → List ((String × Nat) × InferenceChunk)
  | [] => []
  | kv :: rest => if kv.1 = k then (k, c) :: rest else kv :: updAssoc k c rest

/-- One iteration of the dedup loop of `combine_retrieval_results`: insert a
new key at the end, or replace the stored chunk when the incoming score
(`None` as 0) is strictly higher. -/
def dictInsert (m : List ((String × Nat) × InferenceChunk)) (c : InferenceChunk) :
    List ((String × Nat) × InferenceChunk) :=
  match lookupAssoc (chunkKey c) m with
  | none => m ++ [(chunkKey c, c)]
  | some stored =>
    if scoreOr0 stored < scoreOr0 c then updAssoc (chunkKey c) c m else m

/-- The evolution of the dict entry of one key across the occurrences of
that key, in flattening order: keep the stored chunk unless the incoming
score (`None` as 0) is strictly higher. -/
def chooseBetter (acc : Option InferenceChunk) (c : InferenceChunk) :
    Option InferenceChunk :=
  match acc with
  | none => some c
  | some stored => if scoreOr0 stored < scoreOr0 c then some c else some stored

/-- First-occurrence deduplication of a key sequence relative to a set of
already-seen keys; describes the key order of the dedup dict. -/
def keysNew (seen : List (String × Nat)) :
    List (String × Nat) → List (String × Nat)
  | [] => []
  | k :: ks => if k ∈ seen then keysNew seen ks else k :: keysNew (k :: seen) ks

/-- Index of the first occurrence of a key in a key sequence (the length of
the sequence when absent). -/
def firstIdx (k : String × Nat) : List (String × Nat) → Nat
  | [] => 0
  | k' :: ks => if k' = k then 0 else firstIdx k ks + 1

/-- `combine_retrieval_results`: flatten, dedup by key keeping the
highest-scoring occurrence (ties to the first seen), then stable sort by
score descending (`None` as 0).  Python's stable `sorted` is modelled by
`List.insertionSort`. -/
def combine_retrieval_results (chunk_sets : List (List InferenceChunk)) :
    List InferenceChunk :=
  let all_chunks := chunk_sets.flatten
  let unique_chunks := all_chunks.foldl dictInsert []
  List.insertionSort (fun a b => scoreOr0 b ≤ scoreOr0 a)
    (unique_chunks.map Prod.snd)

/-! ### ScoreMath: `apply_boost`

`translate_boost_count_to_multiplier` lives in
danswer.document_index.document_index_utils, which is not part of the
provided sources; the spec leaves its exact curve as a tunable, so it is
threaded through as an abstract parameter `tb`. -/

/-- The normalization bounds of `apply_boost`:
`nmin = min(norm_min, min(scores[:norm_cutoff]))` and
`nmax = max(norm_max, max(scores[:norm_cutoff]))`; `none` when the top
slice is empty (Python `min`/`max` raise `ValueError`). -/
def normBounds (chunks : List InferenceChunk) (norm_cutoff : Nat)
    (norm_min norm_max : ℚ) : Option (ℚ × ℚ) :=
  let scores := chunks.map scoreOr0
  match listMin (scores.take norm_cutoff), listMax (scores.take norm_cutoff) with
  | some tmin, some tmax => some (min norm_min tmin, max norm_max tmax)
  | _, _ => none

/-- `apply_boost`: normalize against the top-`norm_cutoff` window, apply the
boost and recency multipliers, clamp at 0, stable sort descending and write
the scores back.  Returns `none` where the source raises: empty top slice
(`min`/`max` of an empty sequence) or `nmax - nmin = 0` (Python float
division by zero raises `ZeroDivisionError`; the source divides
unconditionally). -/
def apply_boost (tb : Int → ℚ) (chunks : List InferenceChunk)
    (norm_cutoff : Nat) (norm_min norm_max : ℚ) : Option (List InferenceChunk) :=
  match normBounds chunks norm_cutoff norm_min norm_max with
  | none => none
  | some (nmin, nmax) =>
    let norm_range := nmax - nmin
    if norm_range = 0 then none
    else
      let scores := chunks.map scoreOr0
      let boosts := chunks.map fun c => tb c.boost
      let recency_multiplier := chunks.map fun c => c.recency_bias
      let boosted_scores :=
        (scores.zip (boosts.zip recency_multiplier)).map fun p =>
          max 0 ((p.1 - nmin) * p.2.1 * p.2.2 / norm_range)
      let rescored_chunks := boosted_scores.zip chunks
      let sorted := List.insertionSort (fun a b => b.1 ≤ a.1) rescored_chunks
      some (sorted.map fun p => { p.2 with score := some p.1 })

/-! ### Reranker: `semantic_reranking` and `rerank_chunks`

The cross-encoder ensemble is an external capability; its output
`predict(query, passages)` is the matrix `S` (outer dimension = models,
inner dimension = passages) passed as a parameter. -/

/-- The score the reranker computes for the chunk originally at position `i`:
shifted per-model scores averaged, boosted by `tb chunk.boost` and
`chunk.recency_bias`, then mapped to the `[model_min, model_max]` display
range. -/
def rerankScore (tb : Int → ℚ) (S : List (List ℚ)) (cmin model_min model_max : ℚ)
    (i : Nat) (c : InferenceChunk) : ℚ :=
  let shifted := (S.map fun row => row.getD i 0 - cmin).sum / (S.length : ℚ)
  (shifted * tb c.boost * c.recency_bias + cmin - model_min) /
    (model_max - model_min)

/-- `semantic_reranking`: fuse the ensemble scores, boost, normalize, stable
sort descending and write the new scores into the chunks; also returns the
original indices in the new order.  The raw (unshifted) score average and
the optional metrics callback feed only the metrics sink and never influence
the returned chunks or order, so they are not modelled.  Returns `none`
where the source raises:
no models (`sum([]) / 0`), a score row whose width differs from the passage
count (numpy broadcast error), or no chunks (`numpy.min` of a zero-size
array and unpacking `zip(*[])` both raise). -/
def semantic_reranking (tb : Int → ℚ) (S : List (List ℚ))
    (chunks : List InferenceChunk) (model_min model_max : ℚ) :
    Option (List InferenceChunk × List Nat) :=
  if S = [] then none
  else if ¬ (S.all fun row => row.length = chunks.length) then none
  else
    match listMin S.flatten with
    | none => none
    | some cross_models_min =>
      if chunks = [] then none
      else
        let scored_results : List (ℚ × InferenceChunk × Nat) :=
          chunks.enum.map fun p =>
            (rerankScore tb S cross_models_min model_min model_max p.1 p.2,
              p.2, p.1)
        let sorted := List.insertionSort (fun a b => b.1 ≤ a.1) scored_results
        some (sorted.map (fun t => { t.2.1 with score := some t.1 }),
          sorted.map fun t => t.2.2)

/-- Search types routed by the dispatcher.  Modelled from the spec:
`danswer.search.models` is not part of the provided sources. -/
inductive SearchType where
  | KEYWORD
  | SEMANTIC
  | HYBRID
deriving DecidableEq, Repr

/-- Modelled from the spec: the `SearchQuery` fields read by the pipeline
stages under verification (`danswer.search.models` is not part of the
provided sources). -/
structure SearchQuery where
  query : String
  search_type : SearchType
  num_rerank : Nat
  max_llm_filter_chunks : Nat
  skip_rerank : Bool
  skip_llm_chunk_filter : Bool
deriving DecidableEq, Repr

/-- `rerank_chunks`: rerank the top `num_rerank` chunks, clear the scores of
the untouched tail and append it. -/
def rerank_chunks (tb : Int → ℚ) (q : SearchQuery) (S : List (List ℚ))
    (chunks_to_rerank : List InferenceChunk) (model_min model_max : ℚ) :
    Option (List InferenceChunk) :=
  match semantic_reranking tb S (chunks_to_rerank.take q.num_rerank)
      model_min model_max with
  | none => none
  | some (ranked_chunks, _) =>
    some (ranked_chunks ++
      (chunks_to_rerank.drop q.num_rerank).map fun c => { c with score := none })

/-! ### TextNormalizer and the query-expansion dedup -/

/-- Python's `string.punctuation` (32 ASCII characters). -/
def pythonPunctuation : String :=
  "!\x22#$%&\x27()*+,-./:;<=>?@[\x5c]^_\x60\x7b|\x7d~"

/-- Python `str.isspace` restricted to the ASCII whitespace characters. -/
def pyIsSpace (ch : Char) : Bool :=
  ch = ' ' || ch = '\t' || ch = '\n' || ch = '\r' ||
    ch = Char.ofNat 11 || ch = Char.ofNat 12

/-- `_simplify_text`: drop punctuation and whitespace, lowercase.  Used as
the canonicalizer deduplicating query rephrases. -/
def simplify_text (text : String) : String :=
  String.mk ((text.toList.filter fun ch =>
    ch ∉ pythonPunctuation.toList ∧ ¬ pyIsSpace ch).map Char.toLower)

/-- One iteration of the rephrase-dedup loop in `retrieve_chunks`: skip the
candidate when its canonical form was already seen, otherwise record the
canonical form and schedule the retrieval. -/
def expansionStep (acc : List String × List String) (rephrase : String) :
    List String × List String :=
  let simplified := simplify_text rephrase
  if simplified ∈ acc.1 then acc else (acc.1 ++ [simplified], acc.2 ++ [rephrase])

/-- The queries actually dispatched by the expansion branch of
`retrieve_chunks`.  `iterOrder` is the iteration order of the Python `set`
of candidate rephrases (hash order, not specified by the language); the
claims quantify over it. -/
def expansionQueries (iterOrder : List String) : List String :=
  (iterOrder.foldl expansionStep ([], [])).2

/-! ### RelevanceFilter and the two-yield pipeline generator -/

/-- `should_rerank`: never rerank keyword search. -/
def should_rerank (q : SearchQuery) : Bool :=
  !(q.search_type = SearchType.KEYWORD) && !q.skip_rerank

/-- `should_apply_llm_based_relevance_filter`. -/
def should_apply_llm_based_relevance_filter (q : SearchQuery) : Bool :=
  !q.skip_llm_chunk_filter

/-- `filter_chunks`: truncate to `max_llm_filter_chunks` and return the
unique ids the judge marked relevant.  `judged` is the parallel boolean
vector produced by the external LLM batch judge. -/
def filter_chunks (q : SearchQuery) (chunks_to_filter : List InferenceChunk)
    (judged : List Bool) : List (String × Nat) :=
  let truncated := chunks_to_filter.take q.max_llm_filter_chunks
  (truncated.zip judged).filterMap fun p =>
    if p.2 then some (uid p.1) else none

/-- Modelled from the spec: `run_functions_in_parallel`
(danswer.utils.threadpool_concurrency is not part of the provided sources)
gathers the results of the dispatched tasks; a task that fails contributes
no result, which the generator reads back as `None`.  Task outcomes are
therefore passed as `Option`-valued parameters.

`full_chunk_search_generator`: the sequence of yields of the streaming
pipeline, given the retrieval output, the rerank task outcome and the filter
task outcome.  Each yield is either a chunk list or a boolean mask. -/
def full_chunk_search_generator (q : SearchQuery)
    (retrieved_chunks : List InferenceChunk)
    (rerankResult : Option (List InferenceChunk))
    (filterResult : Option (List (String × Nat))) :
    List (List InferenceChunk ⊕ List Bool) :=
  if retrieved_chunks = [] then [Sum.inl [], Sum.inr []]
  else
    let reranked_chunks : Option (List InferenceChunk) :=
      if should_rerank q then rerankResult else none
    let chunkYields : List (List InferenceChunk ⊕ List Bool) :=
      if should_rerank q then
        match reranked_chunks with
        | some rc => if rc = [] then [] else [Sum.inl rc]
        | none => []
      else [Sum.inl retrieved_chunks]
    let base : List InferenceChunk :=
      match reranked_chunks with
      | some rc => if rc = [] then retrieved_chunks else rc
      | none => retrieved_chunks
    let llm_chunk_selection : Option (List (String × Nat)) :=
      if should_apply_llm_based_relevance_filter q then filterResult else none
    let maskYield : List (List InferenceChunk ⊕ List Bool) :=
      match llm_chunk_selection with
      | some sel => [Sum.inr (base.map fun c => decide (uid c ∈ sel))]
      | none => [Sum.inr (base.map fun _ => true)]
    chunkYields ++ maskYield

/-! ### Concrete inputs used by witnesses and counterexamples -/

/-- A chunk with score 1/2, used to exhibit the degenerate-normalization
behaviour of `apply_boost`. -/
def cHalf : InferenceChunk := ⟨"d", 0, "x", 0, 1, some (1/2)⟩

/-- A chunk with score 1. -/
def cOne : InferenceChunk := ⟨"a", 0, "alpha", 0, 1, some 1⟩

/-- A chunk with score 2, distinct key from `cOne`. -/
def cTwo : InferenceChunk := ⟨"b", 1, "beta", 2, 1, some 2⟩

/-- A chunk with score 3 sharing the key of `cOne`. -/
def cThree : InferenceChunk := ⟨"a", 0, "gamma", 0, 1, some 3⟩

/-- The constant boost curve, a valid instance of the spec's tunable
`translate_boost_count_to_multiplier` contract. -/
def tbOne : Int → ℚ := fun _ => 1

/-- A semantic query with `num_rerank = 0`: the rerank task then reranks the
empty slice, on which `semantic_reranking` raises, so the task produces no
result. -/
def qRerankFail : SearchQuery := ⟨"q", SearchType.SEMANTIC, 0, 5, false, true⟩

/-- A keyword query with the LLM relevance filter enabled and
`max_llm_filter_chunks = 1`. -/
def qKeywordFilter : SearchQuery := ⟨"q", SearchType.KEYWORD, 2, 1, false, false⟩

/-- A semantic query reranking the top 2 chunks. -/
def qSem2 : SearchQuery := ⟨"q", SearchType.SEMANTIC, 2, 5, false, false⟩

/-! ## Theorems -/

/-- C10: `apply_boost` is partial at the empty boundary: for the empty chunk
list, or whenever `norm_cutoff = 0` so that the top slice `scores[:norm_cutoff]`
is empty, it raises (modelled as `none`) when taking the minimum and maximum of
the empty slice; conversely, whenever it does return a list, the chunk list was
non-empty and `norm_cutoff` at least 1. -/
theorem c10_apply_boost_empty_boundary :
    (∀ (tb : Int → ℚ) (chunks : List InferenceChunk) (norm_cutoff : Nat)
        (norm_min norm_max : ℚ), chunks = [] ∨ norm_cutoff = 0 →
        apply_boost tb chunks norm_cutoff norm_min norm_max = none) ∧
    (∀ (tb : Int → ℚ) (chunks : List InferenceChunk) (norm_cutoff : Nat)
        (norm_min norm_max : ℚ),
        (apply_boost tb chunks norm_cutoff norm_min norm_max).isSome →
        chunks ≠ [] ∧ 1 ≤ norm_cutoff) := by
  have h1 : ∀ (tb : Int → ℚ) (chunks : List InferenceChunk) (norm_cutoff : Nat)
      (norm_min norm_max : ℚ), chunks = [] ∨ norm_cutoff = 0 →
      apply_boost tb chunks norm_cutoff norm_min norm_max = none := by
    rintro tb chunks norm_cutoff norm_min norm_max (rfl | rfl) <;>
      simp [apply_boost, normBounds, listMin, listMax]
  refine ⟨h1, fun tb chunks norm_cutoff norm_min norm_max h => ?_⟩
  by_contra hc
  rw [not_and_or] at hc
  have : chunks = [] ∨ norm_cutoff = 0 := by
    rcases hc with hc | hc
    · exact Or.inl (not_not.mp hc)
    · exact Or.inr (by omega)
  rw [h1 tb chunks norm_cutoff norm_min norm_max this] at h
  simp at h

/-- Witness for C10 at a concrete input. -/
theorem c10_witness :
    apply_boost tbOne [] 1 0 1 = none :=
  c10_apply_boost_empty_boundary.1 tbOne [] 1 0 1 (Or.inl rfl)

/-- C1 (refuting evaluation): on a chunk list whose computed normalization
bounds coincide (`nmax = nmin = 1/2`), `apply_boost` does not fall back to
`scores[i] * boost[i] * recency[i]`: it divides by the zero range
`nmax - nmin`, which raises `ZeroDivisionError` in the source (modelled as
`none`), so no list is returned at all. -/
theorem c1_apply_boost_degenerate_bounds_raises :
    normBounds [cHalf] 1 (1/2) (1/2) = some (1/2, 1/2) ∧
    apply_boost tbOne [cHalf] 1 (1/2) (1/2) = none := by
  have h1 : normBounds [cHalf] 1 (1/2) (1/2) = some (1/2, 1/2) := by
    simp [normBounds, listMin, listMax, scoreOr0, cHalf]
  refine ⟨h1, ?_⟩
  rw [apply_boost, h1]
  simp

/-- C6: whenever the chunk list is non-empty and the computed normalization
bounds do not coincide, `apply_boost` returns a list in which every chunk has a
present score that is at least 0. -/
theorem c6_apply_boost_nonneg (tb : Int → ℚ) (chunks : List InferenceChunk)
    (norm_cutoff : Nat) (norm_min norm_max nmin nmax : ℚ)
    (hchunks : chunks ≠ [])
    (hb : normBounds chunks norm_cutoff norm_min norm_max = some (nmin, nmax))
    (hne : nmin ≠ nmax) :
    ∃ out, apply_boost tb chunks norm_cutoff norm_min norm_max = some out ∧
      ∀ c ∈ out, ∃ s, c.score = some s ∧ 0 ≤ s := by
  have hr : nmax - nmin ≠ 0 := sub_ne_zero.mpr (Ne.symm hne)
  have hsome : (apply_boost tb chunks norm_cutoff norm_min norm_max).isSome := by
    rw [apply_boost, hb]
    simp [hr]
  obtain ⟨out, hout⟩ := Option.isSome_iff_exists.mp hsome
  refine ⟨out, hout, ?_⟩
  rw [apply_boost, hb] at hout
  simp only [if_neg hr] at hout
  rw [Option.some.injEq] at hout
  intro c hc
  rw [← hout] at hc
  rw [List.mem_map] at hc
  obtain ⟨p, hp, rfl⟩ := hc
  refine ⟨p.1, rfl, ?_⟩
  rw [List.mem_insertionSort] at hp
  have hp1 := (List.of_mem_zip hp).1
  rw [List.mem_map] at hp1
  obtain ⟨u, _, hu⟩ := hp1
  rw [← hu]
  exact le_max_left 0 _

/-- Witness for C6 at a concrete input. -/
theorem c6_witness :
    ∃ out, apply_boost tbOne [cOne] 1 0 1 = some out ∧
      ∀ c ∈ out, ∃ s, c.score = some s ∧ 0 ≤ s :=
  c6_apply_boost_nonneg tbOne [cOne] 1 0 1 0 1 (by decide) (by decide)
    (by decide)

/-- C3 (refuting evaluation): with reranking enabled and `num_rerank = 0`,
`rerank_chunks` raises on the empty top slice, so the rerank task produces no
result; the generator then never yields the chunk list and produces a single
yield (only the relevance mask), not two. -/
theorem c3_generator_single_yield_on_rerank_failure :
    rerank_chunks tbOne qRerankFail [[5]] [cOne] 0 1 = none ∧
    full_chunk_search_generator qRerankFail [cOne]
        (rerank_chunks tbOne qRerankFail [[5]] [cOne] 0 1) none =
      [Sum.inr [true]] := by
  have h : rerank_chunks tbOne qRerankFail [[5]] [cOne] 0 1 = none := by
    simp [rerank_chunks, qRerankFail, semantic_reranking]
  refine ⟨h, ?_⟩
  rw [h]
  simp [full_chunk_search_generator, should_rerank,
    should_apply_llm_based_relevance_filter, qRerankFail, cOne]

/-- Invariants of the rephrase-dedup fold in `retrieve_chunks`: the seen set
is the image of the scheduled queries under the canonicalizer, stays
duplicate-free, grows monotonically, covers every processed candidate, and
every scheduled query is either inherited or a processed candidate. -/
theorem expansion_foldl_invariants :
    ∀ (l : List String) (acc : List String × List String),
      acc.1 = acc.2.map simplify_text →
      ((l.foldl expansionStep acc).1 =
          (l.foldl expansionStep acc).2.map simplify_text) ∧
      (acc.1.Nodup → (l.foldl expansionStep acc).1.Nodup) ∧
      (∀ s ∈ acc.2, s ∈ (l.foldl expansionStep acc).2) ∧
      (∀ s ∈ acc.1, s ∈ (l.foldl expansionStep acc).1) ∧
      (∀ q ∈ l, simplify_text q ∈ (l.foldl expansionStep acc).1) ∧
      (∀ e ∈ (l.foldl expansionStep acc).2, e ∈ acc.2 ∨ e ∈ l) := by
  intro l
  induction l with
  | nil =>
    intro acc h
    exact ⟨h, fun hn => hn, fun s hs => hs, fun s hs => hs,
      fun q hq => absurd hq (List.not_mem_nil q), fun e he => Or.inl he⟩
  | cons r t ih =>
    intro acc hacc
    rw [List.foldl_cons]
    by_cases hmem : simplify_text r ∈ acc.1
    · have hstep : expansionStep acc r = acc := by
        rw [expansionStep, if_pos hmem]
      rw [hstep]
      obtain ⟨i1, i2, i3, i4, i5, i6⟩ := ih acc hacc
      refine ⟨i1, i2, i3, i4, ?_, ?_⟩
      · intro q hq
        rcases List.mem_cons.mp hq with rfl | hq
        · exact i4 _ hmem
        · exact i5 q hq
      · intro e he
        rcases i6 e he with he' | he'
        · exact Or.inl he'
        · exact Or.inr (List.mem_cons_of_mem _ he')
    · have hstep : expansionStep acc r =
          (acc.1 ++ [simplify_text r], acc.2 ++ [r]) := by
        rw [expansionStep, if_neg hmem]
      rw [hstep]
      have hacc' : (acc.1 ++ [simplify_text r], acc.2 ++ [r]).1 =
          (acc.1 ++ [simplify_text r], acc.2 ++ [r]).2.map simplify_text := by
        simp [hacc]
      obtain ⟨i1, i2, i3, i4, i5, i6⟩ :=
        ih (acc.1 ++ [simplify_text r], acc.2 ++ [r]) hacc'
      refine ⟨i1, ?_, ?_, ?_, ?_, ?_⟩
      · intro hnd
        refine i2 ?_
        rw [List.nodup_append]
        refine ⟨hnd, List.nodup_singleton _, ?_⟩
        intro a ha hb
        rw [List.mem_singleton] at hb
        subst hb
        exact hmem ha
      · intro s hs
        exact i3 s (List.mem_append_left _ hs)
      · intro s hs
        exact i4 s (List.mem_append_left _ hs)
      · intro q hq
        rcases List.mem_cons.mp hq with rfl | hq
        · exact i4 _ (List.mem_append_right _ (List.mem_singleton_self _))
        · exact i5 q hq
      · intro e he
        rcases i6 e he with he' | he'
        · rcases List.mem_append.mp he' with h' | h'
          · exact Or.inl h'
          · have her : e = r := List.mem_singleton.mp h'
            exact Or.inr (by rw [her]; exact List.mem_cons_self r t)
        · exact Or.inr (List.mem_cons_of_mem _ he')

/-- C7 (counterexample): with the rephrase "Q!" and original query "Q", the
candidate set is {"Q!", "Q"}; under the set-iteration order putting "Q!"
first, the executed retrieval queries are exactly ["Q!"]: the original query
"Q" is not among the executed retrieval queries. -/
theorem c7_counterexample :
    List.Nodup ["Q!", "Q"] ∧
    (∀ x ∈ ["Q!", "Q"], x ∈ ["Q!"] ++ ["Q"]) ∧
    (∀ x ∈ ["Q!"] ++ ["Q"], x ∈ ["Q!", "Q"]) ∧
    expansionQueries ["Q!", "Q"] = ["Q!"] ∧
    "Q" ∉ expansionQueries ["Q!", "Q"] := by
  decide

/-- C7 (amended): for every set-iteration order over the candidate rephrases
(the LLM rephrases plus the appended original query), the executed retrieval
queries are pairwise distinct under the canonicalizer `_simplify_text`, every
candidate's canonicalization class is represented by exactly one executed
query, in particular some executed query has the canonical form of the
original query, and every executed query is a candidate — but the executed
representative of the original's class need not be the original query
itself. -/
theorem c7_expansion_dedup (rephrases : List String) (orig : String)
    (iterOrder : List String)
    (hset : ∀ x, x ∈ iterOrder ↔ x ∈ rephrases ++ [orig]) :
    ((expansionQueries iterOrder).map simplify_text).Nodup ∧
    (∀ q ∈ iterOrder, ∃ e ∈ expansionQueries iterOrder,
        simplify_text e = simplify_text q) ∧
    (∃ e ∈ expansionQueries iterOrder,
        simplify_text e = simplify_text orig) ∧
    (∀ e ∈ expansionQueries iterOrder, e ∈ rephrases ++ [orig]) := by
  obtain ⟨i1, i2, _, _, i5, i6⟩ :=
    expansion_foldl_invariants iterOrder ([], []) (by simp)
  have hmap : ((expansionQueries iterOrder).map simplify_text).Nodup := by
    rw [expansionQueries, ← i1]
    exact i2 List.nodup_nil
  have hcover : ∀ q ∈ iterOrder, ∃ e ∈ expansionQueries iterOrder,
      simplify_text e = simplify_text q := by
    intro q hq
    have := i5 q hq
    rw [i1] at this
    obtain ⟨e, he, heq⟩ := List.mem_map.mp this
    exact ⟨e, he, heq⟩
  refine ⟨hmap, hcover, ?_, ?_⟩
  · exact hcover orig ((hset orig).mpr
      (List.mem_append_right _ (List.mem_singleton_self _)))
  · intro e he
    rcases i6 e he with h | h
    · exact absurd h (List.not_mem_nil e)
    · exact (hset e).mp h

/-- Witness for C7's amended claim at a concrete input. -/
theorem c7_witness :
    (((expansionQueries ["hola", "hi"]).map simplify_text).Nodup ∧
      (∀ q ∈ ["hola", "hi"], ∃ e ∈ expansionQueries ["hola", "hi"],
          simplify_text e = simplify_text q) ∧
      (∃ e ∈ expansionQueries ["hola", "hi"],
          simplify_text e = simplify_text "hi") ∧
      (∀ e ∈ expansionQueries ["hola", "hi"], e ∈ ["hola"] ++ ["hi"])) :=
  c7_expansion_dedup ["hola"] "hi" ["hola", "hi"] (fun _ => Iff.rfl)

/-- Inversion of a successful `semantic_reranking` run: recover the guards
and the sorted-list shape of both outputs. -/
theorem semantic_reranking_inv (tb : Int → ℚ) (S : List (List ℚ))
    (chunks : List InferenceChunk) (model_min model_max : ℚ)
    (out : List InferenceChunk) (idxs : List Nat)
    (h : semantic_reranking tb S chunks model_min model_max = some (out, idxs)) :
    ∃ cmin, listMin S.flatten = some cmin ∧ S ≠ [] ∧
      (∀ row ∈ S, row.length = chunks.length) ∧ chunks ≠ [] ∧
      out = (List.insertionSort (fun a b => b.1 ≤ a.1)
          (chunks.enum.map fun p =>
            (rerankScore tb S cmin model_min model_max p.1 p.2, p.2, p.1))).map
          (fun t => { t.2.1 with score := some t.1 }) ∧
      idxs = (List.insertionSort (fun a b => b.1 ≤ a.1)
          (chunks.enum.map fun p =>
            (rerankScore tb S cmin model_min model_max p.1 p.2, p.2, p.1))).map
          (fun t => t.2.2) := by
  rw [semantic_reranking] at h
  by_cases h1 : S = []
  · rw [if_pos h1] at h
    exact absurd h (by simp)
  rw [if_neg h1] at h
  by_cases h2 : S.all fun row => row.length = chunks.length
  · rw [if_neg (by simpa using h2)] at h
    cases hm : listMin S.flatten with
    | none => rw [hm] at h; exact absurd h (by simp)
    | some cmin =>
      rw [hm] at h
      simp only at h
      by_cases h3 : chunks = []
      · rw [if_pos h3] at h
        exact absurd h (by simp)
      · rw [if_neg h3] at h
        rw [Option.some.injEq, Prod.mk.injEq] at h
        exact ⟨cmin, rfl, h1, by simpa using h2, h3, h.1.symm, h.2.symm⟩
  · rw [if_pos (by simpa using h2)] at h
    exact absurd h (by simp)

/-- Membership in `l.enum` pins the index below `l.length` and the payload to
the element at that index. -/
theorem mem_enum_spec {α : Type} [Inhabited α] {l : List α} {p : Nat × α}
    (hp : p ∈ l.enum) : p.1 < l.length ∧ l.getD p.1 default = p.2 := by
  rw [List.enum_eq_enumFrom] at hp
  obtain ⟨i, hi, hie⟩ := List.getElem_of_mem hp
  rw [List.getElem_enumFrom] at hie
  have hi' : i < l.length := by simpa using hi
  have h1 : p.1 = i := by
    have := congrArg Prod.fst hie
    simpa using this.symm
  have h2 : p.2 = l[i] := by
    have := congrArg Prod.snd hie
    simpa using this.symm
  subst h1
  refine ⟨hi', ?_⟩
  rw [List.getD_eq_getElem l default hi', h2]

/-- C5: a successful `semantic_reranking` returns, at every output position
`j`, the chunk originally at position `idxs j` carrying exactly the score
`rerankScore` computes for that original position — the mean over models of
the min-shifted cross-encoder matrix, multiplied by the boost translation
and the recency bias, then normalized by `(model_max - model_min)` after
adding back the global matrix minimum `cmin` and subtracting `model_min`;
the output is sorted by that score in descending order and `idxs` is a
permutation of the original indices. -/
theorem c5_semantic_reranking_scores (tb : Int → ℚ) (S : List (List ℚ))
    (chunks : List InferenceChunk) (model_min model_max : ℚ)
    (out : List InferenceChunk) (idxs : List Nat)
    (hmm : model_min ≠ model_max)
    (h : semantic_reranking tb S chunks model_min model_max = some (out, idxs)) :
    out.length = chunks.length ∧ idxs.length = chunks.length ∧
    idxs.Perm (List.range chunks.length) ∧
    (∃ cmin, listMin S.flatten = some cmin ∧
      ∀ j, j < chunks.length →
        idxs.getD j 0 < chunks.length ∧
        out.getD j default =
          { chunks.getD (idxs.getD j 0) default with
            score := some (rerankScore tb S cmin model_min model_max
              (idxs.getD j 0) (chunks.getD (idxs.getD j 0) default)) }) ∧
    (out.map scoreOr0).Pairwise (fun a b => b ≤ a) := by
  obtain ⟨cmin, hm, hS, hrow, hch, hout, hidx⟩ :=
    semantic_reranking_inv tb S chunks model_min model_max out idxs h
  have hperm : (List.insertionSort (fun a b => b.1 ≤ a.1)
      (chunks.enum.map fun p =>
        (rerankScore tb S cmin model_min model_max p.1 p.2, p.2, p.1))).Perm
      (chunks.enum.map fun p =>
        (rerankScore tb S cmin model_min model_max p.1 p.2, p.2, p.1)) :=
    List.perm_insertionSort _ _
  have hslen : (List.insertionSort (fun a b => b.1 ≤ a.1)
      (chunks.enum.map fun p =>
        (rerankScore tb S cmin model_min model_max p.1 p.2, p.2, p.1))).length =
      chunks.length := by
    rw [hperm.length_eq, List.length_map, List.enum_length]
  have hlen1 : out.length = chunks.length := by
    rw [hout, List.length_map, hslen]
  have hlen2 : idxs.length = chunks.length := by
    rw [hidx, List.length_map, hslen]
  refine ⟨hlen1, hlen2, ?_, ⟨cmin, hm, ?_⟩, ?_⟩
  · rw [hidx]
    refine (hperm.map _).trans ?_
    rw [List.map_map]
    have hcomp : ((fun t : ℚ × InferenceChunk × Nat => t.2.2) ∘
        fun p : Nat × InferenceChunk =>
        (rerankScore tb S cmin model_min model_max p.1 p.2, p.2, p.1)) =
        Prod.fst := by
      funext p; rfl
    rw [hcomp, List.enum_eq_enumFrom, List.enumFrom_map_fst,
      ← List.range_eq_range']
  · intro j hj
    have hjs : j < (List.insertionSort (fun a b => b.1 ≤ a.1)
        (chunks.enum.map fun p =>
          (rerankScore tb S cmin model_min model_max p.1 p.2, p.2, p.1))).length := by
      rw [hslen]; exact hj
    have hsmem : (List.insertionSort (fun a b => b.1 ≤ a.1)
        (chunks.enum.map fun p =>
          (rerankScore tb S cmin model_min model_max p.1 p.2, p.2, p.1)))[j] ∈
        chunks.enum.map fun p =>
          (rerankScore tb S cmin model_min model_max p.1 p.2, p.2, p.1) :=
      hperm.mem_iff.mp (List.getElem_mem hjs)
    rw [List.mem_map] at hsmem
    obtain ⟨p, hp, hps⟩ := hsmem
    obtain ⟨hplt, hpget⟩ := mem_enum_spec hp
    have hidxj : idxs.getD j 0 = p.1 := by
      rw [hidx, List.getD_eq_getElem _ 0 (by rw [List.length_map]; exact hjs),
        List.getElem_map, ← hps]
    have houtj : out.getD j default =
        { p.2 with score := some (rerankScore tb S cmin model_min model_max
          p.1 p.2) } := by
      rw [hout, List.getD_eq_getElem _ default (by rw [List.length_map]; exact hjs),
        List.getElem_map, ← hps]
    rw [hidxj, houtj, hpget]
    exact ⟨hplt, rfl⟩
  · have hsorted : List.Sorted (fun a b : ℚ × InferenceChunk × Nat => b.1 ≤ a.1)
        (List.insertionSort (fun a b => b.1 ≤ a.1)
          (chunks.enum.map fun p =>
            (rerankScore tb S cmin model_min model_max p.1 p.2, p.2, p.1))) := by
      haveI ht : IsTotal (ℚ × InferenceChunk × Nat) (fun a b => b.1 ≤ a.1) :=
        ⟨fun a b => le_total b.1 a.1⟩
      haveI htr : IsTrans (ℚ × InferenceChunk × Nat) (fun a b => b.1 ≤ a.1) :=
        ⟨fun a b c h1 h2 => le_trans h2 h1⟩
      exact List.sorted_insertionSort _ _
    rw [hout, List.map_map]
    have hcomp : (scoreOr0 ∘ fun t : ℚ × InferenceChunk × Nat =>
        { t.2.1 with score := some t.1 }) = fun t => t.1 := by
      funext t; simp [scoreOr0]
    rw [hcomp]
    exact List.pairwise_map.mpr hsorted

/-- Witness for C5 at a concrete input. -/
theorem c5_witness :
    ∃ out idxs, semantic_reranking tbOne [[1, 3]] [cOne, cTwo] 0 1 =
        some (out, idxs) ∧
      out.length = [cOne, cTwo].length ∧
      idxs.Perm (List.range [cOne, cTwo].length) ∧
      (out.map scoreOr0).Pairwise (fun a b => b ≤ a) := by
  have hEq : semantic_reranking tbOne [[1, 3]] [cOne, cTwo] 0 1 =
      some ([{ cTwo with score := some 3 }, { cOne with score := some 1 }],
        [1, 0]) := by
    norm_num [semantic_reranking, rerankScore, listMin, List.enum,
      List.enumFrom, cOne, cTwo, tbOne]
    simp
  obtain ⟨h1, _, h3, _, h5⟩ := c5_semantic_reranking_scores tbOne [[1, 3]]
    [cOne, cTwo] 0 1 _ _ (by norm_num) hEq
  exact ⟨_, _, hEq, h1, h3, h5⟩

/-- C2: a successful `rerank_chunks` run returns a list of the same length as
its input in which the first `num_rerank` positions are a permutation of the
first `num_rerank` input chunks (up to the in-place score rewrite), the
remaining positions carry exactly the remaining input chunks in their
original relative order with their scores cleared, and in particular every
chunk at or beyond position `num_rerank` has an absent score. -/
theorem c2_rerank_chunks_permutation (tb : Int → ℚ) (q : SearchQuery)
    (S : List (List ℚ)) (chunks : List InferenceChunk)
    (model_min model_max : ℚ) (out : List InferenceChunk)
    (h : rerank_chunks tb q S chunks model_min model_max = some out) :
    out.length = chunks.length ∧
    ((out.take q.num_rerank).map clearScore).Perm
      ((chunks.take q.num_rerank).map clearScore) ∧
    out.drop q.num_rerank = (chunks.drop q.num_rerank).map clearScore ∧
    (∀ i, q.num_rerank ≤ i → ∀ hy : i < out.length,
      (out.get ⟨i, hy⟩).score = none) := by
  rw [rerank_chunks] at h
  cases hsr : semantic_reranking tb S (chunks.take q.num_rerank)
      model_min model_max with
  | none => rw [hsr] at h; exact absurd h (by simp)
  | some pr =>
    obtain ⟨ranked, idxs⟩ := pr
    rw [hsr] at h
    simp only [Option.some.injEq] at h
    have hlam : (fun c : InferenceChunk => { c with score := none }) =
        clearScore := rfl
    rw [hlam] at h
    obtain ⟨cmin, _, _, _, _, hrank, _⟩ := semantic_reranking_inv tb S
      (chunks.take q.num_rerank) model_min model_max ranked idxs hsr
    have hlenr : ranked.length = (chunks.take q.num_rerank).length := by
      rw [hrank, List.length_map, (List.perm_insertionSort _ _).length_eq,
        List.length_map, List.enum_length]
    have hpermr : (ranked.map clearScore).Perm
        ((chunks.take q.num_rerank).map clearScore) := by
      rw [hrank, List.map_map]
      refine ((List.perm_insertionSort _ _).map _).trans ?_
      rw [List.map_map]
      have hcomp : ((clearScore ∘ fun t : ℚ × InferenceChunk × Nat =>
          { t.2.1 with score := some t.1 }) ∘ fun p : Nat × InferenceChunk =>
          (rerankScore tb S cmin model_min model_max p.1 p.2, p.2, p.1)) =
          clearScore ∘ Prod.snd := rfl
      rw [hcomp, ← List.map_map, List.enum_eq_enumFrom, List.enumFrom_map_snd]
    have htake : out.take q.num_rerank = ranked := by
      rcases le_or_lt q.num_rerank chunks.length with hk | hk
      · rw [← h]
        refine List.take_left' ?_
        rw [hlenr, List.length_take]
        omega
      · have hdrop : chunks.drop q.num_rerank = [] :=
          List.drop_eq_nil_of_le (le_of_lt hk)
        rw [← h, hdrop, List.map_nil, List.append_nil]
        refine List.take_of_length_le ?_
        rw [hlenr, List.length_take]
        omega
    have hdropeq : out.drop q.num_rerank =
        (chunks.drop q.num_rerank).map clearScore := by
      rcases le_or_lt q.num_rerank chunks.length with hk | hk
      · rw [← h]
        refine List.drop_left' ?_
        rw [hlenr, List.length_take]
        omega
      · have hdrop : chunks.drop q.num_rerank = [] :=
          List.drop_eq_nil_of_le (le_of_lt hk)
        rw [hdrop, List.map_nil]
        refine List.drop_eq_nil_of_le ?_
        rw [← h, hdrop, List.map_nil, List.append_nil, hlenr, List.length_take]
        omega
    have hlen : out.length = chunks.length := by
      rw [← h, List.length_append, hlenr, List.length_map, List.length_take,
        List.length_drop]
      omega
    refine ⟨hlen, by rw [htake]; exact hpermr, hdropeq, ?_⟩
    intro i hi hy
    have hi' : i - q.num_rerank < (out.drop q.num_rerank).length := by
      rw [List.length_drop]
      omega
    have hieq : i = q.num_rerank + (i - q.num_rerank) := by omega
    have hget : out.get ⟨i, hy⟩ = (out.drop q.num_rerank)[i - q.num_rerank] := by
      rw [List.get_eq_getElem, List.getElem_drop]
      congr 1
      try omega
    have h2 := List.getElem_of_eq hdropeq hi'
    rw [hget, h2, List.getElem_map]
    simp [clearScore]

/-- Witness for C2 at a concrete input. -/
theorem c2_witness :
    ∃ out, rerank_chunks tbOne qSem2 [[1, 3]] [cOne, cTwo, cThree] 0 1 =
        some out ∧
      out.length = [cOne, cTwo, cThree].length ∧
      out.drop qSem2.num_rerank =
        ([cOne, cTwo, cThree].drop qSem2.num_rerank).map clearScore := by
  have hEq : rerank_chunks tbOne qSem2 [[1, 3]] [cOne, cTwo, cThree] 0 1 =
      some [{ cTwo with score := some 3 }, { cOne with score := some 1 },
        { cThree with score := none }] := by
    norm_num [rerank_chunks, qSem2, semantic_reranking, rerankScore, listMin,
      List.enum, List.enumFrom, cOne, cTwo, cThree, tbOne]
    simp
  obtain ⟨h1, _, h3, _⟩ := c2_rerank_chunks_permutation tbOne qSem2 [[1, 3]]
    [cOne, cTwo, cThree] 0 1 _ hEq
  exact ⟨_, hEq, h1, h3⟩

/-- The unique ids returned by `filter_chunks` are exactly the ids of the
truncated chunks at the positions the judge marked relevant. -/
theorem mem_filter_chunks_iff (q : SearchQuery) (cs : List InferenceChunk)
    (judged : List Bool)
    (hlen : judged.length = (cs.take q.max_llm_filter_chunks).length)
    (u : String × Nat) :
    u ∈ filter_chunks q cs judged ↔
      ∃ j, j < (cs.take q.max_llm_filter_chunks).length ∧
        u = uid ((cs.take q.max_llm_filter_chunks).getD j default) ∧
        judged.getD j false = true := by
  rw [filter_chunks, List.mem_filterMap]
  constructor
  · rintro ⟨p, hp, hpu⟩
    by_cases hb : p.2
    · rw [if_pos hb, Option.some.injEq] at hpu
      obtain ⟨j, hj, hje⟩ := List.getElem_of_mem hp
      rw [List.getElem_zip] at hje
      have hjlt : j < (cs.take q.max_llm_filter_chunks).length := by
        rw [List.length_zip] at hj
        omega
      have hjlt2 : j < judged.length := by rw [hlen]; exact hjlt
      refine ⟨j, hjlt, ?_, ?_⟩
      · rw [← hpu, List.getD_eq_getElem _ default hjlt]
        have := congrArg Prod.fst hje
        simp only at this
        rw [← this]
      · rw [List.getD_eq_getElem _ false hjlt2]
        have := congrArg Prod.snd hje
        simp only at this
        exact this.trans hb
    · rw [if_neg hb] at hpu
      exact absurd hpu (by simp)
  · rintro ⟨j, hj, hu, hb⟩
    have hjlt2 : j < judged.length := by rw [hlen]; exact hj
    have hjz : j < ((cs.take q.max_llm_filter_chunks).zip judged).length := by
      rw [List.length_zip]
      omega
    refine ⟨((cs.take q.max_llm_filter_chunks).zip judged)[j],
      List.getElem_mem hjz, ?_⟩
    rw [List.getElem_zip]
    have hb' : judged[j] = true := by
      rw [← List.getD_eq_getElem _ false hjlt2]
      exact hb
    rw [hb']
    simp only [if_pos]
    rw [hu, List.getD_eq_getElem _ default hj]

/-- C9: when the LLM relevance filter runs and the judge succeeds, the mask
yielded second is `true` at position `i` exactly when the chunk at position
`i` of the first-yielded list has the unique id of one of the first
`max_llm_filter_chunks` chunks of the retrieval-ordered list at a position
the judge marked relevant; every chunk whose id is not among that
retrieval-order truncation therefore receives `false`, not the fail-open
`true`. -/
theorem c9_mask_alignment (q : SearchQuery) (retrieved : List InferenceChunk)
    (rerankResult : Option (List InferenceChunk)) (judged : List Bool)
    (L : List InferenceChunk)
    (hfilter : should_apply_llm_based_relevance_filter q = true)
    (hjlen : judged.length = (retrieved.take q.max_llm_filter_chunks).length)
    (hretr : retrieved ≠ [])
    (hcase : (should_rerank q = false ∧ L = retrieved) ∨
      (should_rerank q = true ∧ rerankResult = some L ∧ L ≠ [])) :
    ∃ mask : List Bool,
      full_chunk_search_generator q retrieved rerankResult
          (some (filter_chunks q (retrieved.take q.max_llm_filter_chunks)
            judged)) = [Sum.inl L, Sum.inr mask] ∧
      mask.length = L.length ∧
      (∀ i, i < L.length →
        (mask.getD i false = true ↔
          ∃ j, j < (retrieved.take q.max_llm_filter_chunks).length ∧
            uid (L.getD i default) =
              uid ((retrieved.take q.max_llm_filter_chunks).getD j default) ∧
            judged.getD j false = true)) := by
  have hgen : full_chunk_search_generator q retrieved rerankResult
      (some (filter_chunks q (retrieved.take q.max_llm_filter_chunks) judged)) =
      [Sum.inl L, Sum.inr (L.map fun c => decide
        (uid c ∈ filter_chunks q (retrieved.take q.max_llm_filter_chunks)
          judged))] := by
    rcases hcase with ⟨hsr, hL⟩ | ⟨hsr, hrr, hLne⟩
    · subst hL
      rw [full_chunk_search_generator, if_neg hretr]
      simp [hsr, hfilter]
    · subst hrr
      rw [full_chunk_search_generator, if_neg hretr]
      simp [hsr, hfilter, hLne]
  refine ⟨_, hgen, by rw [List.length_map], ?_⟩
  intro i hi
  have hmask : (L.map fun c => decide
      (uid c ∈ filter_chunks q (retrieved.take q.max_llm_filter_chunks)
        judged)).getD i false =
      decide (uid (L.getD i default) ∈
        filter_chunks q (retrieved.take q.max_llm_filter_chunks) judged) := by
    have hil : i < (L.map fun c => decide
        (uid c ∈ filter_chunks q (retrieved.take q.max_llm_filter_chunks)
          judged)).length := by
      rw [List.length_map]; exact hi
    rw [List.getD_eq_getElem _ false hil, List.getElem_map,
      List.getD_eq_getElem _ default hi]
  rw [hmask]
  rw [decide_eq_true_iff]
  have htt : (retrieved.take q.max_llm_filter_chunks).take
      q.max_llm_filter_chunks = retrieved.take q.max_llm_filter_chunks := by
    rw [List.take_take, min_self]
  have := mem_filter_chunks_iff q (retrieved.take q.max_llm_filter_chunks)
    judged (by rw [htt]; exact hjlen) (uid (L.getD i default))
  rw [htt] at this
  exact this

/-- Witness for C9 at a concrete input: only the first chunk is within the
filter truncation, so the second chunk gets mask value `false`. -/
theorem c9_witness :
    ∃ mask : List Bool,
      full_chunk_search_generator qKeywordFilter [cOne, cTwo] none
          (some (filter_chunks qKeywordFilter
            ([cOne, cTwo].take qKeywordFilter.max_llm_filter_chunks)
            [true])) = [Sum.inl [cOne, cTwo], Sum.inr mask] ∧
      mask.length = 2 := by
  obtain ⟨mask, h1, h2, _⟩ := c9_mask_alignment qKeywordFilter [cOne, cTwo]
    none [true] [cOne, cTwo] rfl (by rfl) (by simp)
    (Or.inl ⟨rfl, rfl⟩)
  exact ⟨mask, h1, by rw [h2]; rfl⟩

/-- Updating one key leaves lookups of other keys unchanged. -/
theorem lookupAssoc_updAssoc_ne (k k' : String × Nat) (c : InferenceChunk)
    (m : List ((String × Nat) × InferenceChunk)) (h : k' ≠ k) :
    lookupAssoc k (updAssoc k' c m) = lookupAssoc k m := by
  induction m with
  | nil => rfl
  | cons kv rest ih =>
    by_cases hk : kv.1 = k'
    · rw [updAssoc, if_pos hk, lookupAssoc, if_neg h, lookupAssoc,
        if_neg (fun hh => h (hk.symm.trans hh))]
    · rw [updAssoc, if_neg hk, lookupAssoc, lookupAssoc]
      by_cases hkk : kv.1 = k
      · rw [if_pos hkk, if_pos hkk]
      · rw [if_neg hkk, if_neg hkk, ih]

/-- Looking up the updated key returns the new chunk when the key was
present, nothing otherwise. -/
theorem lookupAssoc_updAssoc_self (k : String × Nat) (c : InferenceChunk)
    (m : List ((String × Nat) × InferenceChunk)) :
    lookupAssoc k (updAssoc k c m) = (lookupAssoc k m).map fun _ => c := by
  induction m with
  | nil => rfl
  | cons kv rest ih =>
    by_cases hk : kv.1 = k
    · rw [updAssoc, if_pos hk, lookupAssoc, if_pos rfl, lookupAssoc, if_pos hk]
      rfl
    · rw [updAssoc, if_neg hk, lookupAssoc, if_neg hk, lookupAssoc, if_neg hk,
        ih]

/-- Appending a fresh binding is only visible when the key was absent. -/
theorem lookupAssoc_append_single_of_none (k k' : String × Nat)
    (c : InferenceChunk) (m : List ((String × Nat) × InferenceChunk))
    (h : lookupAssoc k m = none) :
    lookupAssoc k (m ++ [(k', c)]) = if k' = k then some c else none := by
  induction m with
  | nil => rfl
  | cons kv rest ih =>
    rw [lookupAssoc] at h
    by_cases hk : kv.1 = k
    · rw [if_pos hk] at h
      exact absurd h (by simp)
    · rw [if_neg hk] at h
      rw [List.cons_append, lookupAssoc, if_neg hk, ih h]

/-- Appending a binding does not shadow an existing one. -/
theorem lookupAssoc_append_single_of_some (k k' : String × Nat)
    (c v : InferenceChunk) (m : List ((String × Nat) × InferenceChunk))
    (h : lookupAssoc k m = some v) :
    lookupAssoc k (m ++ [(k', c)]) = some v := by
  induction m with
  | nil => exact absurd h (by simp [lookupAssoc])
  | cons kv rest ih =>
    rw [lookupAssoc] at h
    by_cases hk : kv.1 = k
    · rw [if_pos hk] at h
      rw [List.cons_append, lookupAssoc, if_pos hk]
      exact h
    · rw [if_neg hk] at h
      rw [List.cons_append, lookupAssoc, if_neg hk, ih h]

/-- A positional update does not change the key sequence. -/
theorem fst_updAssoc (k : String × Nat) (c : InferenceChunk)
    (m : List ((String × Nat) × InferenceChunk)) :
    (updAssoc k c m).map Prod.fst = m.map Prod.fst := by
  induction m with
  | nil => rfl
  | cons kv rest ih =>
    by_cases hk : kv.1 = k
    · rw [updAssoc, if_pos hk, List.map_cons, List.map_cons, hk]
    · rw [updAssoc, if_neg hk, List.map_cons, List.map_cons, ih]

/-- A key is found exactly when it occurs in the key sequence. -/
theorem lookupAssoc_isSome_iff (k : String × Nat)
    (m : List ((String × Nat) × InferenceChunk)) :
    (lookupAssoc k m).isSome ↔ k ∈ m.map Prod.fst := by
  induction m with
  | nil => simp [lookupAssoc]
  | cons kv rest ih =>
    by_cases hk : kv.1 = k
    · simp [lookupAssoc, hk]
    · rw [lookupAssoc, if_neg hk, List.map_cons]
      rw [List.mem_cons]
      constructor
      · intro h
        exact Or.inr (ih.mp h)
      · rintro (h | h)
        · exact absurd h.symm hk
        · exact ih.mpr h

/-- A successful lookup is a member of the association list. -/
theorem lookupAssoc_mem (k : String × Nat) (v : InferenceChunk)
    (m : List ((String × Nat) × InferenceChunk))
    (h : lookupAssoc k m = some v) : (k, v) ∈ m := by
  induction m with
  | nil => exact absurd h (by simp [lookupAssoc])
  | cons kv rest ih =>
    rw [lookupAssoc] at h
    by_cases hk : kv.1 = k
    · rw [if_pos hk, Option.some.injEq] at h
      refine List.mem_cons.mpr (Or.inl ?_)
      rw [← hk, ← h]
    · rw [if_neg hk] at h
      exact List.mem_cons_of_mem _ (ih h)

/-- With duplicate-free keys, every member is found by lookup. -/
theorem mem_lookupAssoc (kv : (String × Nat) × InferenceChunk)
    (m : List ((String × Nat) × InferenceChunk))
    (hm : (m.map Prod.fst).Nodup) (h : kv ∈ m) :
    lookupAssoc kv.1 m = some kv.2 := by
  induction m with
  | nil => cases h
  | cons kv' rest ih =>
    rw [List.map_cons, List.nodup_cons] at hm
    rcases List.mem_cons.mp h with rfl | h'
    · rw [lookupAssoc, if_pos rfl]
    · have hne : kv'.1 ≠ kv.1 := by
        intro he
        exact hm.1 (he ▸ List.mem_map.mpr ⟨kv, h', rfl⟩)
      rw [lookupAssoc, if_neg hne]
      exact ih hm.2 h'

/-- Members of an update come from the original list or are the new
binding. -/
theorem mem_updAssoc (kv : (String × Nat) × InferenceChunk)
    (k : String × Nat) (c : InferenceChunk)
    (m : List ((String × Nat) × InferenceChunk))
    (h : kv ∈ updAssoc k c m) : kv ∈ m ∨ kv = (k, c) := by
  induction m with
  | nil => cases h
  | cons kv' rest ih =>
    by_cases hk : kv'.1 = k
    · rw [updAssoc, if_pos hk] at h
      rcases List.mem_cons.mp h with rfl | h'
      · exact Or.inr rfl
      · exact Or.inl (List.mem_cons_of_mem _ h')
    · rw [updAssoc, if_neg hk] at h
      rcases List.mem_cons.mp h with rfl | h'
      · exact Or.inl (List.mem_cons_self _ _)
      · rcases ih h' with h'' | h''
        · exact Or.inl (List.mem_cons_of_mem _ h'')
        · exact Or.inr h''

/-- Effect of one dedup-loop iteration on a lookup: the entry of the
inserted chunk's key evolves by `chooseBetter`, all others are unchanged. -/
theorem lookupAssoc_dictInsert (k : String × Nat) (c : InferenceChunk)
    (m : List ((String × Nat) × InferenceChunk)) :
    lookupAssoc k (dictInsert m c) =
      if chunkKey c = k then chooseBetter (lookupAssoc k m) c
      else lookupAssoc k m := by
  by_cases hck : chunkKey c = k
  · rw [if_pos hck, ← hck]
    cases hl : lookupAssoc (chunkKey c) m with
    | none =>
      rw [dictInsert, hl]
      simp only
      rw [lookupAssoc_append_single_of_none _ _ _ _ hl, if_pos rfl, chooseBetter]
    | some stored =>
      rw [dictInsert, hl]
      simp only
      rw [chooseBetter]
      by_cases hlt : scoreOr0 stored < scoreOr0 c
      · rw [if_pos hlt, if_pos hlt, lookupAssoc_updAssoc_self, hl]
        rfl
      · rw [if_neg hlt, if_neg hlt, hl]
  · rw [if_neg hck]
    cases hl : lookupAssoc (chunkKey c) m with
    | none =>
      rw [dictInsert, hl]
      simp only
      cases hl2 : lookupAssoc k m with
      | none => rw [lookupAssoc_append_single_of_none _ _ _ _ hl2, if_neg hck]
      | some v => rw [lookupAssoc_append_single_of_some _ _ _ _ _ hl2]
    | some stored =>
      rw [dictInsert, hl]
      simp only
      by_cases hlt : scoreOr0 stored < scoreOr0 c
      · rw [if_pos hlt, lookupAssoc_updAssoc_ne _ _ _ _ hck]
      · rw [if_neg hlt]

/-- A lookup after the dedup fold equals the `chooseBetter` fold over the
occurrences of that key. -/
theorem lookupAssoc_foldl_dictInsert (k : String × Nat) :
    ∀ (l : List InferenceChunk) (m : List ((String × Nat) × InferenceChunk)),
      lookupAssoc k (l.foldl dictInsert m) =
        (l.filter fun c => chunkKey c = k).foldl chooseBetter
          (lookupAssoc k m) := by
  intro l
  induction l with
  | nil => intro m; rfl
  | cons c t ih =>
    intro m
    rw [List.foldl_cons, ih (dictInsert m c), lookupAssoc_dictInsert]
    by_cases hck : chunkKey c = k
    · rw [if_pos hck, List.filter_cons_of_pos (by simp [hck]), List.foldl_cons]
    · rw [if_neg hck, List.filter_cons_of_neg (by simp [hck])]

/-- Effect of one dedup-loop iteration on the key sequence: a new key is
appended, an existing key changes nothing. -/
theorem fst_dictInsert (m : List ((String × Nat) × InferenceChunk))
    (c : InferenceChunk) :
    (dictInsert m c).map Prod.fst =
      if chunkKey c ∈ m.map Prod.fst then m.map Prod.fst
      else m.map Prod.fst ++ [chunkKey c] := by
  cases hl : lookupAssoc (chunkKey c) m with
  | none =>
    have hnm : chunkKey c ∉ m.map Prod.fst := by
      rw [← lookupAssoc_isSome_iff, hl]
      simp
    rw [dictInsert, hl]
    simp only
    rw [if_neg hnm, List.map_append]
    rfl
  | some stored =>
    have hmem : chunkKey c ∈ m.map Prod.fst := by
      rw [← lookupAssoc_isSome_iff, hl]
      rfl
    rw [dictInsert, hl]
    simp only
    rw [if_pos hmem]
    by_cases hlt : scoreOr0 stored < scoreOr0 c
    · rw [if_pos hlt, fst_updAssoc]
    · rw [if_neg hlt]

/-- `keysNew` only depends on the membership of the seen set. -/
theorem keysNew_congr :
    ∀ (ks : List (String × Nat)) (s1 s2 : List (String × Nat)),
      (∀ x, x ∈ s1 ↔ x ∈ s2) → keysNew s1 ks = keysNew s2 ks
  | [], _, _, _ => rfl
  | k :: ks, s1, s2, h => by
    rw [keysNew, keysNew]
    by_cases hk : k ∈ s1
    · rw [if_pos hk, if_pos ((h k).mp hk)]
      exact keysNew_congr ks s1 s2 h
    · rw [if_neg hk, if_neg (fun hh => hk ((h k).mpr hh))]
      rw [keysNew_congr ks (k :: s1) (k :: s2) (fun x => by
        rw [List.mem_cons, List.mem_cons, h x])]

/-- The key sequence of the dedup fold extends the inherited keys by the
first occurrences of the new ones. -/
theorem fst_foldl_dictInsert :
    ∀ (l : List InferenceChunk) (m : List ((String × Nat) × InferenceChunk)),
      (l.foldl dictInsert m).map Prod.fst =
        m.map Prod.fst ++ keysNew (m.map Prod.fst) (l.map chunkKey) := by
  intro l
  induction l with
  | nil => intro m; simp [keysNew]
  | cons c t ih =>
    intro m
    rw [List.foldl_cons, ih (dictInsert m c), fst_dictInsert, List.map_cons,
      keysNew]
    by_cases hmem : chunkKey c ∈ m.map Prod.fst
    · rw [if_pos hmem, if_pos hmem]
    · rw [if_neg hmem, if_neg hmem]
      rw [keysNew_congr (t.map chunkKey) (m.map Prod.fst ++ [chunkKey c])
        (chunkKey c :: m.map Prod.fst) (fun x => by
          rw [List.mem_append, List.mem_singleton, List.mem_cons, or_comm])]
      rw [List.append_assoc, List.singleton_append]

/-- Keys produced by `keysNew` were not already seen. -/
theorem keysNew_not_mem_seen :
    ∀ (ks seen : List (String × Nat)) (k : String × Nat),
      k ∈ keysNew seen ks → k ∉ seen
  | [], _, k, h => absurd h (List.not_mem_nil k)
  | k' :: ks, seen, k, h => by
    rw [keysNew] at h
    by_cases hk : k' ∈ seen
    · rw [if_pos hk] at h
      exact keysNew_not_mem_seen ks seen k h
    · rw [if_neg hk] at h
      rcases List.mem_cons.mp h with rfl | h'
      · exact hk
      · have := keysNew_not_mem_seen ks (k' :: seen) k h'
        exact fun hs => this (List.mem_cons_of_mem _ hs)

/-- `keysNew` produces no duplicates. -/
theorem keysNew_nodup :
    ∀ (ks seen : List (String × Nat)), (keysNew seen ks).Nodup
  | [], _ => List.nodup_nil
  | k :: ks, seen => by
    rw [keysNew]
    by_cases hk : k ∈ seen
    · rw [if_pos hk]
      exact keysNew_nodup ks seen
    · rw [if_neg hk]
      rw [List.nodup_cons]
      exact ⟨fun h => keysNew_not_mem_seen ks (k :: seen) k h
        (List.mem_cons_self _ _), keysNew_nodup ks (k :: seen)⟩

/-- `keysNew` lists keys in order of their first occurrence. -/
theorem keysNew_pairwise :
    ∀ (ms : List (String × Nat)) (seen : List (String × Nat)),
      (keysNew seen ms).Pairwise fun a b => firstIdx a ms < firstIdx b ms
  | [], _ => List.Pairwise.nil
  | m :: ms, seen => by
    rw [keysNew]
    by_cases hm : m ∈ seen
    · rw [if_pos hm]
      refine (keysNew_pairwise ms seen).imp_of_mem ?_
      intro a b ha hb hab
      have hane : m ≠ a := fun he => keysNew_not_mem_seen ms seen a ha
        (he ▸ hm)
      have hbne : m ≠ b := fun he => keysNew_not_mem_seen ms seen b hb
        (he ▸ hm)
      rw [firstIdx, if_neg hane, firstIdx, if_neg hbne]
      omega
    · rw [if_neg hm]
      rw [List.pairwise_cons]
      constructor
      · intro b hb
        have hbne : m ≠ b := fun he => keysNew_not_mem_seen ms (m :: seen) b hb
          (he ▸ List.mem_cons_self m seen)
        rw [firstIdx, if_pos rfl, firstIdx, if_neg hbne]
        omega
      · refine (keysNew_pairwise ms (m :: seen)).imp_of_mem ?_
        intro a b ha hb hab
        have hane : m ≠ a := fun he => keysNew_not_mem_seen ms (m :: seen) a ha
          (he ▸ List.mem_cons_self m seen)
        have hbne : m ≠ b := fun he => keysNew_not_mem_seen ms (m :: seen) b hb
          (he ▸ List.mem_cons_self m seen)
        rw [firstIdx, if_neg hane, firstIdx, if_neg hbne]
        omega

/-- Folding `chooseBetter` from a present accumulator yields the first
maximum: either the accumulator beats the whole list, or the result is the
first strict improvement, bounds the list, and every earlier element scores
strictly below it. -/
theorem foldl_chooseBetter_some :
    ∀ (l : List InferenceChunk) (b : InferenceChunk),
      ∃ r, l.foldl chooseBetter (some b) = some r ∧
        ((r = b ∧ ∀ d ∈ l, scoreOr0 d ≤ scoreOr0 b) ∨
         (scoreOr0 b < scoreOr0 r ∧ (∀ d ∈ l, scoreOr0 d ≤ scoreOr0 r) ∧
          ∃ n, n < l.length ∧ l.getD n default = r ∧
            ∀ j, j < n → scoreOr0 (l.getD j default) < scoreOr0 r))
  | [], b => ⟨b, rfl, Or.inl ⟨rfl, by simp⟩⟩
  | c :: l, b => by
    rw [List.foldl_cons, chooseBetter]
    by_cases hlt : scoreOr0 b < scoreOr0 c
    · rw [if_pos hlt]
      obtain ⟨r, hr, hspec⟩ := foldl_chooseBetter_some l c
      refine ⟨r, hr, Or.inr ?_⟩
      rcases hspec with ⟨rfl, hall⟩ | ⟨hlt2, hall, n, hn, hget, hpre⟩
      · refine ⟨hlt, ?_, 0, by simp, by simp, by omega⟩
        intro d hd
        rcases List.mem_cons.mp hd with rfl | hd
        · exact le_refl _
        · exact hall d hd
      · refine ⟨lt_trans hlt hlt2, ?_, n + 1, by simp; omega, ?_, ?_⟩
        · intro d hd
          rcases List.mem_cons.mp hd with rfl | hd
          · exact le_of_lt hlt2
          · exact hall d hd
        · rw [List.getD_cons_succ]
          exact hget
        · intro j hj
          cases j with
          | zero => rw [List.getD_cons_zero]; exact hlt2
          | succ j' =>
            rw [List.getD_cons_succ]
            exact hpre j' (by omega)
    · rw [if_neg hlt]
      obtain ⟨r, hr, hspec⟩ := foldl_chooseBetter_some l b
      refine ⟨r, hr, ?_⟩
      rcases hspec with ⟨rfl, hall⟩ | ⟨hlt2, hall, n, hn, hget, hpre⟩
      · refine Or.inl ⟨rfl, ?_⟩
        intro d hd
        rcases List.mem_cons.mp hd with rfl | hd
        · exact not_lt.mp hlt
        · exact hall d hd
      · refine Or.inr ⟨hlt2, ?_, n + 1, by simp; omega, ?_, ?_⟩
        · intro d hd
          rcases List.mem_cons.mp hd with rfl | hd
          · exact le_trans (not_lt.mp hlt) (le_of_lt hlt2)
          · exact hall d hd
        · rw [List.getD_cons_succ]
          exact hget
        · intro j hj
          cases j with
          | zero =>
            rw [List.getD_cons_zero]
            exact lt_of_le_of_lt (not_lt.mp hlt) hlt2
          | succ j' =>
            rw [List.getD_cons_succ]
            exact hpre j' (by omega)

/-- The representative elected by the `chooseBetter` fold is a member of the
occurrence list, scores at least every occurrence, and is the first
occurrence attaining that score. -/
theorem foldl_chooseBetter_spec (g : List InferenceChunk)
    (c : InferenceChunk) (h : g.foldl chooseBetter none = some c) :
    c ∈ g ∧ (∀ d ∈ g, scoreOr0 d ≤ scoreOr0 c) ∧
    ∃ n, n < g.length ∧ g.getD n default = c ∧
      ∀ j, j < n → scoreOr0 (g.getD j default) < scoreOr0 c := by
  cases g with
  | nil => exact absurd h (by simp)
  | cons g0 rest =>
    rw [List.foldl_cons] at h
    rw [show chooseBetter none g0 = some g0 from rfl] at h
    obtain ⟨r, hr, hspec⟩ := foldl_chooseBetter_some rest g0
    rw [hr, Option.some.injEq] at h
    subst h
    rcases hspec with ⟨rfl, hall⟩ | ⟨hlt, hall, n, hn, hget, hpre⟩
    · refine ⟨List.mem_cons_self _ _, ?_, 0, by simp, by
        rw [List.getD_cons_zero], by omega⟩
      intro d hd
      rcases List.mem_cons.mp hd with rfl | hd
      · exact le_refl _
      · exact hall d hd
    · have hcm : r ∈ rest := by
        rw [← hget, List.getD_eq_getElem rest default hn]
        exact List.getElem_mem hn
      refine ⟨List.mem_cons_of_mem _ hcm, ?_, n + 1, by simp; omega, ?_, ?_⟩
      · intro d hd
        rcases List.mem_cons.mp hd with rfl | hd
        · exact le_of_lt hlt
        · exact hall d hd
      · rw [List.getD_cons_succ]
        exact hget
      · intro j hj
        cases j with
        | zero => rw [List.getD_cons_zero]; exact hlt
        | succ j' =>
          rw [List.getD_cons_succ]
          exact hpre j' (by omega)

/-- Every entry of the dedup dict binds a chunk under its own key. -/
theorem foldl_dictInsert_key_snd :
    ∀ (l : List InferenceChunk) (m : List ((String × Nat) × InferenceChunk)),
      (∀ kv ∈ m, chunkKey kv.2 = kv.1) →
      ∀ kv ∈ l.foldl dictInsert m, chunkKey kv.2 = kv.1 := by
  intro l
  induction l with
  | nil => intro m hm; exact hm
  | cons c t ih =>
    intro m hm
    rw [List.foldl_cons]
    refine ih (dictInsert m c) ?_
    intro kv hkv
    cases hl : lookupAssoc (chunkKey c) m with
    | none =>
      rw [dictInsert, hl] at hkv
      simp only at hkv
      rcases List.mem_append.mp hkv with h' | h'
      · exact hm kv h'
      · rw [List.mem_singleton] at h'
        rw [h']
    | some stored =>
      rw [dictInsert, hl] at hkv
      simp only at hkv
      by_cases hlt : scoreOr0 stored < scoreOr0 c
      · rw [if_pos hlt] at hkv
        rcases mem_updAssoc kv (chunkKey c) c m hkv with h' | h'
        · exact hm kv h'
        · rw [h']
      · rw [if_neg hlt] at hkv
        exact hm kv hkv

/-- `orderedInsert` commutes with filtering by a predicate whose holders are
pairwise related: the inserted element lands in front of every other
holder. -/
theorem filter_orderedInsert {α : Type} (r : α → α → Prop) [DecidableRel r]
    (p : α → Bool) (hp : ∀ x y, p x = true → p y = true → r x y) (a : α) :
    ∀ l : List α, (List.orderedInsert r a l).filter p =
      if p a then a :: l.filter p else l.filter p
  | [] => by
    rw [List.orderedInsert, List.filter]
    cases hpa : p a <;> simp [hpa]
  | b :: l => by
    rw [List.orderedInsert]
    by_cases hr : r a b
    · rw [if_pos hr, List.filter_cons]
    · rw [if_neg hr, List.filter_cons,
        filter_orderedInsert r p hp a l, List.filter_cons]
      by_cases hpb : p b = true
      · have hpa : ¬ (p a = true) := fun hpa => hr (hp a b hpa hpb)
        simp [hpb, hpa]
      · cases hpa : p a <;> simp [hpb, hpa]

/-- A stable sort does not reorder the holders of a predicate whose holders
are pairwise related. -/
theorem filter_insertionSort {α : Type} (r : α → α → Prop) [DecidableRel r]
    (p : α → Bool) (hp : ∀ x y, p x = true → p y = true → r x y) :
    ∀ l : List α, (List.insertionSort r l).filter p = l.filter p
  | [] => rfl
  | a :: l => by
    rw [List.insertionSort,
      filter_orderedInsert r p hp a (List.insertionSort r l),
      filter_insertionSort r p hp l, List.filter_cons]

/-- Folding fresh, duplicate-free chunks into the dict appends their
bindings in order. -/
theorem foldl_dictInsert_fresh :
    ∀ (xs : List InferenceChunk) (m : List ((String × Nat) × InferenceChunk)),
      (xs.map chunkKey).Nodup →
      (∀ c ∈ xs, chunkKey c ∉ m.map Prod.fst) →
      xs.foldl dictInsert m = m ++ xs.map fun c => (chunkKey c, c)
  | [], m, _, _ => by simp
  | c :: xs, m, hnd, hout => by
    rw [List.map_cons, List.nodup_cons] at hnd
    have hlk : lookupAssoc (chunkKey c) m = none := by
      cases hl : lookupAssoc (chunkKey c) m with
      | none => rfl
      | some v =>
        exact absurd ((lookupAssoc_isSome_iff _ _).mp (by rw [hl]; rfl))
          (hout c (List.mem_cons_self _ _))
    rw [List.foldl_cons, dictInsert, hlk]
    simp only
    rw [foldl_dictInsert_fresh xs (m ++ [(chunkKey c, c)]) hnd.2 ?_]
    · rw [List.map_cons, List.append_assoc, List.singleton_append]
    · intro d hd
      rw [List.map_append, List.mem_append]
      rintro (h' | h')
      · exact hout d (List.mem_cons_of_mem _ hd) h'
      · rw [List.map_singleton, List.mem_singleton] at h'
        refine hnd.1 ?_
        rw [show (chunkKey c, c).1 = chunkKey c from rfl] at h'
        rw [← h']
        exact List.mem_map.mpr ⟨d, hd, rfl⟩

/-- The keys of the dedup dict's chunks, in dict order: the first
occurrences of the flattened keys. -/
theorem combine_reps_keys (xss : List (List InferenceChunk)) :
    ((xss.flatten.foldl dictInsert []).map Prod.snd).map chunkKey =
      keysNew [] (xss.flatten.map chunkKey) := by
  have hsndkey : ∀ kv ∈ xss.flatten.foldl dictInsert [], chunkKey kv.2 = kv.1 :=
    foldl_dictInsert_key_snd xss.flatten [] (by intro kv h; cases h)
  rw [List.map_map]
  have h1 : (xss.flatten.foldl dictInsert []).map (chunkKey ∘ Prod.snd) =
      (xss.flatten.foldl dictInsert []).map Prod.fst :=
    List.map_congr_left fun kv hkv => hsndkey kv hkv
  rw [h1]
  have := fst_foldl_dictInsert xss.flatten []
  simpa using this

/-- The merger's output never repeats a key. -/
theorem combine_retrieval_results_keys_nodup (xss : List (List InferenceChunk)) :
    ((combine_retrieval_results xss).map chunkKey).Nodup := by
  have hre : combine_retrieval_results xss =
      List.insertionSort (fun a b => scoreOr0 b ≤ scoreOr0 a)
        ((xss.flatten.foldl dictInsert []).map Prod.snd) := rfl
  rw [hre]
  have hperm := List.perm_insertionSort
    (fun a b : InferenceChunk => scoreOr0 b ≤ scoreOr0 a)
    ((xss.flatten.foldl dictInsert []).map Prod.snd)
  refine ((hperm.map chunkKey).nodup_iff).mpr ?_
  rw [combine_reps_keys]
  exact keysNew_nodup _ _

/-- The merger's output is sorted by score descending, `None` as 0. -/
theorem combine_retrieval_results_sorted (xss : List (List InferenceChunk)) :
    (combine_retrieval_results xss).Pairwise
      fun a b => scoreOr0 b ≤ scoreOr0 a := by
  have hre : combine_retrieval_results xss =
      List.insertionSort (fun a b => scoreOr0 b ≤ scoreOr0 a)
        ((xss.flatten.foldl dictInsert []).map Prod.snd) := rfl
  rw [hre]
  haveI : IsTotal InferenceChunk (fun a b => scoreOr0 b ≤ scoreOr0 a) :=
    ⟨fun a b => le_total _ _⟩
  haveI : IsTrans InferenceChunk (fun a b => scoreOr0 b ≤ scoreOr0 a) :=
    ⟨fun a b c h1 h2 => le_trans h2 h1⟩
  exact List.sorted_insertionSort _ _

/-- C4: `combine_retrieval_results` emits every flattened key exactly once;
the representative of each key is an occurrence that scores at least every
occurrence of that key (absent as 0) and is the first occurrence attaining
that score in flattening order; the output is sorted by score descending;
and equal-score chunks appear in the order of their keys' first occurrences. -/
theorem c4_combine_retrieval_results_spec (xss : List (List InferenceChunk)) :
    ((combine_retrieval_results xss).map chunkKey).Nodup ∧
    (∀ c ∈ xss.flatten, ∃ d ∈ combine_retrieval_results xss,
        chunkKey d = chunkKey c) ∧
    (∀ c ∈ combine_retrieval_results xss,
      c ∈ xss.flatten ∧
      (∀ d ∈ xss.flatten, chunkKey d = chunkKey c → scoreOr0 d ≤ scoreOr0 c) ∧
      (∃ n, n < (xss.flatten.filter fun d => chunkKey d = chunkKey c).length ∧
        (xss.flatten.filter fun d => chunkKey d = chunkKey c).getD n default
          = c ∧
        ∀ j, j < n → scoreOr0 ((xss.flatten.filter fun d =>
          chunkKey d = chunkKey c).getD j default) < scoreOr0 c)) ∧
    (combine_retrieval_results xss).Pairwise
      (fun a b => scoreOr0 b ≤ scoreOr0 a) ∧
    (∀ s : ℚ, (((combine_retrieval_results xss).filter fun c =>
        scoreOr0 c = s).map chunkKey).Pairwise
      fun k1 k2 => firstIdx k1 (xss.flatten.map chunkKey) <
        firstIdx k2 (xss.flatten.map chunkKey)) := by
  have hre : combine_retrieval_results xss =
      List.insertionSort (fun a b => scoreOr0 b ≤ scoreOr0 a)
        ((xss.flatten.foldl dictInsert []).map Prod.snd) := rfl
  have hsndkey : ∀ kv ∈ xss.flatten.foldl dictInsert [], chunkKey kv.2 = kv.1 :=
    foldl_dictInsert_key_snd xss.flatten [] (by intro kv h; cases h)
  have hDnodupKeys : ((xss.flatten.foldl dictInsert []).map Prod.fst).Nodup := by
    have := fst_foldl_dictInsert xss.flatten []
    rw [this]
    simpa using keysNew_nodup (xss.flatten.map chunkKey) []
  refine ⟨combine_retrieval_results_keys_nodup xss, ?_, ?_,
    combine_retrieval_results_sorted xss, ?_⟩
  · intro c hc
    have hgroup := lookupAssoc_foldl_dictInsert (chunkKey c) xss.flatten []
    have hne : (xss.flatten.filter fun d => chunkKey d = chunkKey c) ≠ [] := by
      intro h0
      have hmm : c ∈ xss.flatten.filter fun d => chunkKey d = chunkKey c :=
        List.mem_filter.mpr ⟨hc, by simp⟩
      rw [h0] at hmm
      cases hmm
    obtain ⟨v, hv⟩ : ∃ v, (xss.flatten.filter fun d =>
        chunkKey d = chunkKey c).foldl chooseBetter none = some v := by
      cases hg : xss.flatten.filter fun d => chunkKey d = chunkKey c with
      | nil => exact absurd hg hne
      | cons g0 rest =>
        rw [List.foldl_cons, show chooseBetter none g0 = some g0 from rfl]
        obtain ⟨r, hr, _⟩ := foldl_chooseBetter_some rest g0
        exact ⟨r, hr⟩
    have hlook : lookupAssoc (chunkKey c) (xss.flatten.foldl dictInsert []) =
        some v := by
      rw [hgroup]
      exact hv
    have hmem := lookupAssoc_mem _ _ _ hlook
    refine ⟨v, ?_, ?_⟩
    · rw [hre, List.mem_insertionSort]
      exact List.mem_map.mpr ⟨(chunkKey c, v), hmem, rfl⟩
    · have := hsndkey (chunkKey c, v) hmem
      simpa using this
  · intro c hc
    rw [hre, List.mem_insertionSort] at hc
    obtain ⟨kv, hkv, hkvc⟩ := List.mem_map.mp hc
    have hk1 : kv.1 = chunkKey c := by
      rw [← hsndkey kv hkv, hkvc]
    have hlook : lookupAssoc (chunkKey c)
        (xss.flatten.foldl dictInsert []) = some c := by
      have hl := mem_lookupAssoc kv _ hDnodupKeys hkv
      rw [hk1, hkvc] at hl
      exact hl
    have hgroup := lookupAssoc_foldl_dictInsert (chunkKey c) xss.flatten []
    rw [hlook] at hgroup
    obtain ⟨hcg, hmax, n, hn, hget, hpre⟩ :=
      foldl_chooseBetter_spec _ c hgroup.symm
    refine ⟨List.mem_of_mem_filter hcg, ?_, n, hn, hget, hpre⟩
    intro d hd hdk
    refine hmax d ?_
    rw [List.mem_filter]
    exact ⟨hd, by simp [hdk]⟩
  · intro s
    have hfilterEq : (combine_retrieval_results xss).filter
        (fun c => scoreOr0 c = s) =
        ((xss.flatten.foldl dictInsert []).map Prod.snd).filter
          (fun c => scoreOr0 c = s) := by
      rw [hre]
      exact filter_insertionSort _ _ (fun x y hx hy => by
        have hx' : scoreOr0 x = s := of_decide_eq_true hx
        have hy' : scoreOr0 y = s := of_decide_eq_true hy
        rw [hx', hy']) _
    rw [hfilterEq]
    have hrepsPW : (((xss.flatten.foldl dictInsert []).map Prod.snd).map
        chunkKey).Pairwise fun k1 k2 =>
        firstIdx k1 (xss.flatten.map chunkKey) <
          firstIdx k2 (xss.flatten.map chunkKey) := by
      rw [combine_reps_keys]
      exact keysNew_pairwise _ _
    exact hrepsPW.sublist ((List.filter_sublist _).map chunkKey)

/-- Witness for C4 at a concrete input: `cThree` shares `cOne`'s key with a
higher score. -/
theorem c4_witness :
    ∃ d ∈ combine_retrieval_results [[cOne], [cThree, cTwo]],
      chunkKey d = chunkKey cOne :=
  (c4_combine_retrieval_results_spec [[cOne], [cThree, cTwo]]).2.1 cOne
    (by simp)

/-- C8: `combine_retrieval_results` is idempotent — merging the singleton
list of an already-merged (key-deduplicated, score-descending) list returns
it unchanged, and in particular merging the singleton of the merger's own
output returns that output. -/
theorem c8_combine_idempotent :
    (∀ xs : List InferenceChunk, (xs.map chunkKey).Nodup →
      xs.Pairwise (fun a b => scoreOr0 b ≤ scoreOr0 a) →
      combine_retrieval_results [xs] = xs) ∧
    (∀ xss : List (List InferenceChunk),
      combine_retrieval_results [combine_retrieval_results xss] =
        combine_retrieval_results xss) := by
  have hsingle : ∀ xs : List InferenceChunk, (xs.map chunkKey).Nodup →
      xs.Pairwise (fun a b => scoreOr0 b ≤ scoreOr0 a) →
      combine_retrieval_results [xs] = xs := by
    intro xs hnd hsorted
    have hre : combine_retrieval_results [xs] =
        List.insertionSort (fun a b => scoreOr0 b ≤ scoreOr0 a)
          ((([xs] : List (List InferenceChunk)).flatten.foldl
            dictInsert []).map Prod.snd) := rfl
    have hflat : ([xs] : List (List InferenceChunk)).flatten = xs := by simp
    rw [hre, hflat, foldl_dictInsert_fresh xs [] hnd (by intro c hc; simp),
      List.nil_append, List.map_map]
    have hid : (Prod.snd ∘ fun c : InferenceChunk => (chunkKey c, c)) = id :=
      rfl
    rw [hid, List.map_id]
    exact List.Sorted.insertionSort_eq hsorted
  exact ⟨hsingle, fun xss => hsingle (combine_retrieval_results xss)
    (combine_retrieval_results_keys_nodup xss)
    (combine_retrieval_results_sorted xss)⟩

/-- Witness for C8 at a concrete input. -/
theorem c8_witness :
    combine_retrieval_results [[cTwo, cOne]] = [cTwo, cOne] :=
  c8_combine_idempotent.1 [cTwo, cOne] (by decide) (by decide)

end Danswer
